import Mathlib

/-
Verification development for the dc-cli content commands.

The TypeScript sources under study are the content-item archive/unarchive
command handlers, the content-item export command (folder traversal and
dependency resolution), and the content-type-schema export helpers.
Pure fragments are embedded as Lean functions over `List Char` strings;
asynchronous remote calls are modelled by explicit environment functions
passed as arguments, and the sequential control flow of each handler is
embedded as a pure function from arguments and environment to an outcome
record.
-/

namespace DcCli

/-- Strings are modelled as lists of characters. -/
abbrev Str := List Char

/-! ### Lines of a text file

The archive log file format is line oriented.  `splitLines` models
`content.split('\n')` and `joinLines` the inverse serialization. -/

/-- Split a character list at every newline character, like
JavaScript `s.split('\n')`: always returns at least one (possibly empty)
line. -/
def splitLines : Str → List Str
  | [] => [[]]
  | c :: rest =>
    if c = '\n' then [] :: splitLines rest
    else
      match splitLines rest with
      | [] => [[c]]
      | l :: ls => (c :: l) :: ls

/-- Join lines with a newline separator (no trailing newline). -/
def joinLines : List Str → Str
  | [] => []
  | [l] => l
  | l :: ls => l ++ '\n' :: joinLines ls

/-- Split a line at its first space character, returning the part before
and the part after; `none` when the line holds no space. -/
def splitFirstSpace : Str → Option (Str × Str)
  | [] => none
  | c :: rest =>
    if c = ' ' then some ([], rest)
    else (splitFirstSpace rest).map (fun p => (c :: p.1, p.2))

/-! ### Archive Log

Modelled from the spec: `src/common/archive/archive-log.ts` is not among
the provided sources (only its callers and `ArchiveOptions` are), so the
`ArchiveLog` class is embedded from the specification text.  A log is an
ordered buffer whose lines are either action records `"VERB id"` or
comments `"// text"`; an optional header title is written as a leading
comment line.  `writeToFile` serializes the buffer as newline separated
UTF-8 text and `loadFromFile` parses each non-comment line into a
`(verb, id)` pair, skipping malformed lines. -/

/-- One line of an archive log: an action record or a comment. -/
inductive LogLine
  | action (verb : Str) (id : Str)
  | comment (text : Str)
deriving DecidableEq, Repr

/-- Modelled from the spec: the in-memory `ArchiveLog` buffer with its
optional header title. -/
structure ArchiveLog where
  title : Option Str
  entries : List LogLine
deriving DecidableEq, Repr

/-- Modelled from the spec: `new ArchiveLog(title)`. -/
def newLog (title : Option Str) : ArchiveLog := ⟨title, []⟩

/-- Modelled from the spec: `addAction(verb, id)` appends an action line. -/
def addAction (verb id : Str) (log : ArchiveLog) : ArchiveLog :=
  { log with entries := log.entries ++ [.action verb id] }

/-- Modelled from the spec: `addComment(text)` appends a comment line. -/
def addComment (text : Str) (log : ArchiveLog) : ArchiveLog :=
  { log with entries := log.entries ++ [.comment text] }

/-- Ordered ids of the action entries recorded with the given verb. -/
def actionIds (verb : Str) (entries : List LogLine) : List Str :=
  entries.filterMap (fun e =>
    match e with
    | .action v i => if v = verb then some i else none
    | .comment _ => none)

/-- Modelled from the spec: `getData(verb)` returns the ordered ids whose
recorded verb equals `verb`; comments never participate. -/
def getData (verb : Str) (log : ArchiveLog) : List Str :=
  actionIds verb log.entries

/-- Serialized text of a single log line. -/
def lineText : LogLine → Str
  | .action v i => v ++ ' ' :: i
  | .comment t => '/' :: '/' :: ' ' :: t

/-- Header comment line (from the title) followed by the buffered lines. -/
def headerEntries (log : ArchiveLog) : List LogLine :=
  (match log.title with
   | some t => [LogLine.comment t]
   | none => []) ++ log.entries

/-- Modelled from the spec: `writeToFile` serializes the buffer to
newline separated text, the conventional header comment line first. -/
def writeToFile (log : ArchiveLog) : Str :=
  joinLines ((headerEntries log).map lineText)

/-- Drop one leading space, as when recovering a comment text from the
serialized form. -/
def dropOneSpace : Str → Str
  | ' ' :: rest => rest
  | l => l

/-- Parse one line of a log file: comment lines start with two slashes,
action lines split at the first space; anything else is malformed. -/
def parseLogLine (l : Str) : Option LogLine :=
  if l.take 2 = ['/', '/'] then some (.comment (dropOneSpace (l.drop 2)))
  else
    match splitFirstSpace l with
    | some (v, i) => some (.action v i)
    | none => none

/-- Modelled from the spec: `loadFromFile` parses each line of the file,
skipping malformed lines; comments are kept but ignored by `getData`. -/
def loadFromFile (content : Str) : ArchiveLog :=
  ⟨none, (splitLines content).filterMap parseLogLine⟩

/-- Replaying a sequence of `addAction`/`addComment` calls: each call is
one `LogLine`. -/
def applyOp (log : ArchiveLog) : LogLine → ArchiveLog
  | .action v i => addAction v i log
  | .comment t => addComment t log

/-- Apply a call sequence to a log. -/
def applyOps (log : ArchiveLog) (ops : List LogLine) : ArchiveLog :=
  ops.foldl applyOp log

/-- Well-formedness of one call: the verb is nonempty, without spaces or
newlines and not starting with two slashes, and ids and comments hold no
newline. -/
def goodLine : LogLine → Prop
  | .action v i => v ≠ [] ∧ ' ' ∉ v ∧ '\n' ∉ v ∧ v.take 2 ≠ ['/', '/'] ∧ '\n' ∉ i
  | .comment t => '\n' ∉ t

/-! ### Filter Engine

Modelled from the spec: `src/common/filter/filter.ts` is not among the
provided sources (only its callers are), so `equalsOrRegex` is embedded
from the specification text.  A pattern of the form `/body/` is treated
as a case-sensitive, un-anchored regular expression over the value (a
single match anywhere suffices); any other pattern requires exact string
equality.  The regular expression dialect embedded here covers literal
characters, the dot wildcard, postfix star/plus/question and top-level
alternation; matching is executed with Brzozowski derivatives and proved
equivalent to the declarative language semantics. -/

/-- Regular expressions over characters. -/
inductive Regex
  | emp
  | eps
  | chr (c : Char)
  | dot
  | alt (p q : Regex)
  | cat (p q : Regex)
  | star (p : Regex)
deriving DecidableEq, Repr

/-- Language of a regular expression, as an inductive predicate. -/
inductive RLang : Regex → Str → Prop
  | eps : RLang .eps []
  | chr (c : Char) : RLang (.chr c) [c]
  | dot (c : Char) : RLang .dot [c]
  | altL {p q s} : RLang p s → RLang (.alt p q) s
  | altR {p q s} : RLang q s → RLang (.alt p q) s
  | cat {p q s t} : RLang p s → RLang q t → RLang (.cat p q) (s ++ t)
  | starNil (p : Regex) : RLang (.star p) []
  | starApp {p s t} : RLang p s → RLang (.star p) t → RLang (.star p) (s ++ t)

/-- Does the expression accept the empty string? -/
def nullable : Regex → Bool
  | .emp => false
  | .eps => true
  | .chr _ => false
  | .dot => false
  | .alt p q => nullable p || nullable q
  | .cat p q => nullable p && nullable q
  | .star _ => true

/-- Brzozowski derivative with respect to one character. -/
def deriv : Regex → Char → Regex
  | .emp, _ => .emp
  | .eps, _ => .emp
  | .chr c, a => if a = c then .eps else .emp
  | .dot, _ => .eps
  | .alt p q, a => .alt (deriv p a) (deriv q a)
  | .cat p q, a =>
    if nullable p then .alt (.cat (deriv p a) q) (deriv q a)
    else .cat (deriv p a) q
  | .star p, a => .cat (deriv p a) (.star p)

/-- Anchored match of a whole string, by iterated derivatives. -/
def matchR (r : Regex) (s : Str) : Bool :=
  nullable (s.foldl deriv r)

/-- Apply a postfix star to the most recent atom. -/
def starLast : List Regex → List Regex
  | [] => []
  | a :: as => .star a :: as

/-- Apply a postfix plus to the most recent atom. -/
def plusLast : List Regex → List Regex
  | [] => []
  | a :: as => .cat a (.star a) :: as

/-- Apply a postfix question mark to the most recent atom. -/
def optLast : List Regex → List Regex
  | [] => []
  | a :: as => .alt a .eps :: as

/-- Scan one alternation branch left to right, collecting atoms in
reverse; a backslash escapes the following character. -/
def scanAtoms : Str → List Regex → List Regex
  | [], acc => acc
  | ['\\'], acc => .chr '\\' :: acc
  | '\\' :: c :: rest, acc => scanAtoms rest (.chr c :: acc)
  | '.' :: rest, acc => scanAtoms rest (.dot :: acc)
  | '*' :: rest, acc => scanAtoms rest (starLast acc)
  | '+' :: rest, acc => scanAtoms rest (plusLast acc)
  | '?' :: rest, acc => scanAtoms rest (optLast acc)
  | c :: rest, acc => scanAtoms rest (.chr c :: acc)

/-- Concatenation of a list of atoms. -/
def catAll (l : List Regex) : Regex :=
  l.foldr .cat .eps

/-- Parse one alternation branch. -/
def buildBranch (cs : Str) : Regex :=
  catAll (scanAtoms cs []).reverse

/-- Build the regular expression of a pattern body: top-level
alternation between scanned branches. -/
def buildRegex (cs : Str) : Regex :=
  match (cs.splitOn '|').map buildBranch with
  | [] => .emp
  | b :: bs => bs.foldl .alt b

/-- Un-anchored match: some contiguous substring is in the language. -/
def matchAnywhere (r : Regex) (s : Str) : Bool :=
  s.tails.any (fun t => t.inits.any (fun p => matchR r p))

/-- Declarative un-anchored matching. -/
def MatchesWithin (r : Regex) (s : Str) : Prop :=
  ∃ pre mid post, s = pre ++ mid ++ post ∧ RLang r mid

/-- Is the pattern of the `/body/` regular-expression form? -/
def isRegexPattern (p : Str) : Bool :=
  decide (2 ≤ p.length) && decide (p.head? = some '/') &&
    decide (p.getLast? = some '/')

/-- Body of a `/body/` pattern: the text between the slashes. -/
def patternBody (p : Str) : Str :=
  (p.drop 1).dropLast

/-- Modelled from the spec: `equalsOrRegex(value, pattern)` from
`src/common/filter/filter.ts` — a `/body/` pattern is tested as an
un-anchored regular expression against the value, any other pattern
requires exact equality. -/
def equalsOrRegex (value pattern : Str) : Bool :=
  if isRegexPattern pattern then matchAnywhere (buildRegex (patternBody pattern)) value
  else decide (value = pattern)

/-- Callers supply one or more patterns; an entity is kept when at least
one pattern matches, mirroring `patterns.findIndex(p =>
equalsOrRegex(v, p)) != -1` in the handlers. -/
def anyPatternMatches (patterns : List Str) (v : Str) : Bool :=
  patterns.any (fun p => equalsOrRegex v p)

/-- Filtering a list of values by a pattern list, as the archive and
export handlers do. -/
def filterByPatterns (patterns : List Str) (vals : List Str) : List Str :=
  vals.filter (anyPatternMatches patterns)

/-! ### Export/Import Synchronizer for content type schemas

Modelled from the spec: `src/commands/content-type-schema/export.ts` is
not among the provided sources (only its test suite is), so
`getExportRecordForContentTypeSchema` and `processContentTypeSchemas`
are embedded from the specification text.  A previous export is a map
from filename to the previously exported entity; the stable business key
is the schema id, bodies are compared byte for byte, and fresh filenames
come from an allocator standing in for `uniqueFilename(dir, 'json')`. -/

/-- A content type schema as relevant to export: its stable business key
and its serialized body. -/
structure ContentTypeSchema where
  schemaId : Str
  body : Str
deriving DecidableEq, Repr

/-- Status of one export record. -/
inductive ExportStatus
  | created
  | upToDate
  | updated
deriving DecidableEq, Repr

/-- Per-entity export record. -/
structure ExportRecord where
  filename : Str
  status : ExportStatus
  contentTypeSchema : ContentTypeSchema
deriving DecidableEq, Repr

/-- Find the previous export entry whose stable business key (schema id)
matches. -/
def lookupBySchemaId (prev : List (Str × ContentTypeSchema)) (sid : Str) :
    Option (Str × ContentTypeSchema) :=
  prev.find? (fun e => decide (e.2.schemaId = sid))

/-- Modelled from the spec: `getExportRecordFor(entity, dir,
previousExports)`; `freshName` is the filename the allocator
`uniqueFilename(dir, 'json')` would produce for a new file. -/
def getExportRecordForContentTypeSchema (schema : ContentTypeSchema)
    (freshName : Str) (prev : List (Str × ContentTypeSchema)) : ExportRecord :=
  match lookupBySchemaId prev schema.schemaId with
  | none => ⟨freshName, .created, schema⟩
  | some (fn, prevSchema) =>
    if prevSchema.body = schema.body then ⟨fn, .upToDate, schema⟩
    else ⟨fn, .updated, schema⟩

/-- Outcome of one `processContentTypeSchemas` invocation: how often the
overwrite prompt was shown, whether the command exited with a non-zero
status, and which files were written. -/
structure ProcessOutcome where
  promptCount : Nat
  exitedNonZero : Bool
  written : List (Str × ContentTypeSchema)
deriving DecidableEq, Repr

/-- Export records for a batch of schemas; the allocator is indexed by
the position of the schema in the batch. -/
def getContentTypeSchemaExports (alloc : Nat → Str)
    (prev : List (Str × ContentTypeSchema))
    (schemas : List ContentTypeSchema) : List ExportRecord :=
  schemas.enum.map (fun ie =>
    getExportRecordForContentTypeSchema ie.2 (alloc ie.1) prev)

/-- Files written for the given records: every CREATED or UPDATED record
produces one write, UP-TO-DATE records none. -/
def pendingWrites (records : List ExportRecord) : List (Str × ContentTypeSchema) :=
  (records.filter (fun r => decide (r.status ≠ .upToDate))).map
    (fun r => (r.filename, r.contentTypeSchema))

/-- Modelled from the spec: `processEntities(dir, previousExports,
entities)` — compute all export records, prompt once for the whole batch
when any record is UPDATED, abort with a non-zero exit and no writes
when the user declines, otherwise write every pending CREATED/UPDATED
file. -/
def processContentTypeSchemas (alloc : Nat → Str)
    (prev : List (Str × ContentTypeSchema)) (schemas : List ContentTypeSchema)
    (confirmAnswer : Bool) : ProcessOutcome :=
  let records := getContentTypeSchemaExports alloc prev schemas
  if (records.filter (fun r => decide (r.status = .updated))).isEmpty then
    ⟨0, false, pendingWrites records⟩
  else if confirmAnswer then
    ⟨1, false, pendingWrites records⟩
  else
    ⟨1, true, []⟩

/-! ### Content-item archive and unarchive handlers

Embedded from `src/commands/content-item/archive.ts` and
`src/commands/content-item/unarchive.ts`.  The two handlers differ only
in the remote operation, the recorded verb (`ARCHIVE` or `UNARCHIVE`),
the verb replayed from a revert log, and the status of the items they
list, so they are embedded as one handler parametric in the two verbs.
The remote service is an explicit environment: item lookup by id, the
repository/folder listing result, the revert-log file read, the per-item
archive/unarchive result and the confirmation answer.  Console output is
modelled as a list of structured messages. -/

/-- A content item as relevant to the handlers: its id, label, and
`body._meta.schema` when the body and its `_meta` are present. -/
structure ContentItem where
  id : Str
  label : Str
  schema : Option Str
deriving DecidableEq, Repr

/-- A yargs option given once (string) or repeated (array). -/
inductive NameArg
  | scalar (s : Str)
  | arr (l : List Str)
deriving DecidableEq, Repr

/-- Pattern list of a scalar-or-array option, as
`Array.isArray(x) ? x : [x]` in the handlers. -/
def nameArgList : NameArg → List Str
  | .scalar s => [s]
  | .arr l => l

/-- JavaScript truthiness of an optional string. -/
def strTruthy : Option Str → Bool
  | none => false
  | some s => decide (s ≠ [])

/-- JavaScript truthiness of an optional scalar-or-array option: an
array is truthy even when empty. -/
def nameTruthy : Option NameArg → Bool
  | none => false
  | some (.scalar s) => decide (s ≠ [])
  | some (.arr _) => true

/-- Command-line arguments of the archive/unarchive handlers. -/
structure HandlerArgs where
  itemId : Option Str
  repoId : Option Str
  folderId : Option Str
  name : Option NameArg
  contentType : Option NameArg
  revertLog : Option Str
  force : Bool
  silent : Bool
  ignoreError : Bool
  logFile : Option Str

/-- Environment of one handler run: the remote service and the user. -/
structure HandlerEnv where
  fetchById : Str → Except Str ContentItem
  fetchAll : Except Str (List ContentItem)
  readFile : Str → Except Str Str
  opFail : Str → Option Str
  confirmAnswer : Bool
  timestamp : Str

/-- Console messages printed by the handlers. -/
inductive Msg
  | ignoringRepoId
  | conflictIdName
  | folderOverRepo
  | fatalGet (err : Str)
  | fatalList (err : Str)
  | fatalRevertLog (err : Str)
  | allContent
  | nothingFound
  | itemLine (label id : Str)
  | total (n : Nat)
  | failedItem (label id err : Str)
  | finished (successes : Nat)
deriving DecidableEq, Repr

/-- Observable outcome of one handler run. -/
structure HandlerOutcome where
  messages : List Msg
  fetchedById : Bool
  fetchedList : Bool
  selected : List ContentItem
  allContentFlag : Bool
  missingContentFlag : Bool
  promptShown : Bool
  attempts : Nat
  successes : Nat
  logWritten : Option ArchiveLog
  exitedNonZero : Bool

/-- Result of the per-item archive/unarchive loop. -/
structure LoopResult where
  log : ArchiveLog
  successes : Nat
  attempts : Nat
  messages : List Msg
deriving Repr

/-- The per-item loop of the handlers: each iteration performs the
remote call; on success an `ARCHIVE`/`UNARCHIVE` action is recorded with
the item id plus a trailing newline; on failure a `FAILED` comment and a
comment with the error text are appended, and the loop continues only
under `ignoreError`, otherwise it halts at once. -/
def processLoop (verb : Str) (opFail : Str → Option Str) (ignoreError : Bool) :
    List ContentItem → ArchiveLog → LoopResult
  | [], log => ⟨log, 0, 0, []⟩
  | item :: rest, log =>
    match opFail item.id with
    | none =>
      let r := processLoop verb opFail ignoreError rest
        (addAction verb (item.id ++ ['\n']) log)
      ⟨r.log, r.successes + 1, r.attempts + 1, r.messages⟩
    | some err =>
      let log2 := addComment err
        (addComment (verb ++ " FAILED: ".toList ++ item.id) log)
      if ignoreError then
        let r := processLoop verb opFail ignoreError rest log2
        ⟨r.log, r.successes, r.attempts + 1,
          .failedItem item.label item.id err :: r.messages⟩
      else
        ⟨log2, 0, 1, [.failedItem item.label item.id err]⟩

/-- Name filtering, as in the handlers: keep the items whose label
matches at least one pattern. -/
def filterByName (pats : List Str) (items : List ContentItem) : List ContentItem :=
  items.filter (fun item => pats.any (fun p => equalsOrRegex item.label p))

/-- Content-type filtering: keep the items whose schema id matches at
least one pattern; items without a body `_meta` are dropped. -/
def filterByContentType (pats : List Str) (items : List ContentItem) :
    List ContentItem :=
  items.filter (fun item =>
    match item.schema with
    | some sch => pats.any (fun p => equalsOrRegex sch p)
    | none => false)

/-- Revert-log selection: keep the fetched items whose id occurs in the
log data for the replayed verb, and flag missing content when the count
of kept items differs from the count of logged ids. -/
def selectByRevertLog (revertVerb : Str) (log : ArchiveLog)
    (items : List ContentItem) : List ContentItem × Bool :=
  let ids := getData revertVerb log
  let sel := items.filter (fun item => decide (item.id ∈ ids))
  (sel, decide (sel.length ≠ ids.length))

/-- Outcome of a handler run that aborts before selecting anything. -/
def abortOutcome (msgs : List Msg) (fById fList : Bool) : HandlerOutcome :=
  ⟨msgs, fById, fList, [], false, false, false, 0, 0, none, false⟩

/-- Common continuation of both handlers once the item set is selected:
empty set aborts, otherwise the items are listed, the confirmation
prompt is shown unless forced, and the per-item loop runs, finally
writing the log unless silenced. -/
def runSelected (verb : Str) (args : HandlerArgs) (env : HandlerEnv)
    (msgs : List Msg) (fById fList : Bool) (items : List ContentItem)
    (allContent missing : Bool) : HandlerOutcome :=
  if items.isEmpty then
    ⟨msgs ++ [.nothingFound], fById, fList, items, allContent, missing,
      false, 0, 0, none, false⟩
  else
    let listMsgs := items.map (fun i => Msg.itemLine i.label i.id) ++
      [Msg.total items.length]
    if args.force || env.confirmAnswer then
      let r := processLoop verb env.opFail args.ignoreError items
        (newLog (some (verb ++ " Log - ".toList ++ env.timestamp ++ ['\n'])))
      ⟨msgs ++ listMsgs ++ r.messages ++ [.finished r.successes], fById, fList,
        items, allContent, missing, !args.force, r.attempts, r.successes,
        if !args.silent && strTruthy args.logFile then some r.log else none,
        false⟩
    else
      ⟨msgs ++ listMsgs, fById, fList, items, allContent, missing, true, 0, 0,
        none, false⟩

/-- The archive/unarchive handler: conflict checks, fetch by id or
listing, selection by revert log, name or content type, then the common
continuation.  `verb` is the recorded verb and `revertVerb` the verb
replayed from a revert log (the archive command records `ARCHIVE` and
replays `UNARCHIVE`; the unarchive command the reverse). -/
def contentItemHandler (verb revertVerb : Str) (args : HandlerArgs)
    (env : HandlerEnv) : HandlerOutcome :=
  let msgs0 := if strTruthy args.repoId && strTruthy args.itemId then
    [Msg.ignoringRepoId] else []
  if strTruthy args.itemId && nameTruthy args.name then
    abortOutcome (msgs0 ++ [.conflictIdName]) false false
  else
    let msgs1 := msgs0 ++ (if strTruthy args.repoId && strTruthy args.folderId
      then [Msg.folderOverRepo] else [])
    match args.itemId with
    | some iid =>
      match env.fetchById iid with
      | .error e => abortOutcome (msgs1 ++ [.fatalGet e]) true false
      | .ok item => runSelected verb args env msgs1 true false [item] false false
    | none =>
      match env.fetchAll with
      | .error e => abortOutcome (msgs1 ++ [.fatalList e]) false true
      | .ok fetched =>
        match args.revertLog with
        | some path =>
          match env.readFile path with
          | .error e => abortOutcome (msgs1 ++ [.fatalRevertLog e]) false true
          | .ok content =>
            let sel := selectByRevertLog revertVerb (loadFromFile content) fetched
            runSelected verb args env msgs1 false true sel.1 false sel.2
        | none =>
          match args.name with
          | some na =>
            runSelected verb args env msgs1 false true
              (filterByName (nameArgList na) fetched) false false
          | none =>
            match args.contentType with
            | some cta =>
              runSelected verb args env msgs1 false true
                (filterByContentType (nameArgList cta) fetched) false false
            | none =>
              runSelected verb args env (msgs1 ++ [.allContent]) false true
                fetched true false

/-- Nothing was prompted, attempted, or written. -/
def Untouched (o : HandlerOutcome) : Prop :=
  o.promptShown = false ∧ o.attempts = 0 ∧ o.successes = 0 ∧ o.logWritten = none

/-- Concrete demonstration items used by closed instances. -/
def demoItem1 : ContentItem := ⟨"i1".toList, "item1".toList, none⟩

/-- Remaining four demonstration items. -/
def demoRest : List ContentItem :=
  [⟨"i2".toList, "item2".toList, none⟩,
   ⟨"i3".toList, "item3".toList, none⟩,
   ⟨"i4".toList, "item4".toList, none⟩,
   ⟨"i5".toList, "item5".toList, none⟩]

/-- Five fetched demonstration items. -/
def demoItems : List ContentItem := demoItem1 :: demoRest

/-- Remote behaviour where only the first demonstration item fails. -/
def demoFail : Str → Option Str :=
  fun i => if i = "i1".toList then some "Error: Error".toList else none

/-- Number of comment lines of a log. -/
def commentCount (log : ArchiveLog) : Nat :=
  (log.entries.filter (fun e =>
    match e with
    | .comment _ => true
    | .action _ _ => false)).length

/-- Arguments carrying both an id and a name. -/
def conflictArgs : HandlerArgs :=
  ⟨some "123".toList, none, none, some (.scalar "item1".toList), none, none,
    false, false, false, some "log.txt".toList⟩

/-- A benign demonstration environment. -/
def demoEnv : HandlerEnv :=
  ⟨fun _ => .error "notfound".toList, .ok [], fun _ => .error "notfound".toList,
    fun _ => none, true, "0".toList⟩

/-! ### Content-item export: resolution of missing dependencies

Embedded from the export command in `src/commands/content-item` (the
loop over `missingIdArray` in its handler).  The dependency scan that
produces the set of referenced-but-absent ids lives in
`content-dependancy-tree.ts`, which is not among the provided sources,
so that set is taken as an input; the resolution loop itself is embedded
from the source: each missing id is fetched individually; an ACTIVE item
is appended to the working set under the synthetic `_dependancies/`
path, an archived item is only noted in the log, and a nonexistent id is
reported in the log. -/

/-- Status of a remotely fetched content item. -/
inductive ItemStatus
  | active
  | archived
deriving DecidableEq, Repr

/-- A remotely fetched content item during export. -/
structure RemoteItem where
  id : Str
  label : Str
  status : ItemStatus
deriving DecidableEq, Repr

/-- An export working-set entry: the item and its target path. -/
structure PathedItem where
  path : Str
  item : RemoteItem
deriving DecidableEq, Repr

/-- Log notes produced by the missing-dependency loop. -/
inductive DepNote
  | added (label : Str)
  | archivedNote (label : Str)
  | notExist (id : Str)
deriving DecidableEq, Repr

/-- The synthetic path for fetched out-of-set dependencies, spelled as
in the source. -/
def depPath : Str := "_dependancies/".toList

/-- The missing-dependency loop: resolve each id against the remote
service, returning the appended working-set entries and the log notes. -/
def resolveMissing (fetch : Str → Option RemoteItem) :
    List Str → List PathedItem × List DepNote
  | [] => ([], [])
  | mid :: rest =>
    let r := resolveMissing fetch rest
    match fetch mid with
    | some item =>
      if item.status = .active then
        (⟨depPath, item⟩ :: r.1, .added item.label :: r.2)
      else
        (r.1, .archivedNote item.label :: r.2)
    | none => (r.1, .notExist mid :: r.2)

/-- The working set after dependency resolution: every entry of it is
subsequently written to disk by the export loop. -/
def exportWorkingSet (items : List PathedItem) (fetch : Str → Option RemoteItem)
    (missingIds : List Str) : List PathedItem :=
  items ++ (resolveMissing fetch missingIds).1

/-! ### Content-item export: folder traversal batches

Embedded from `getContentItems` in the export command: the while loop
starts with the whole base folder list as its first batch, awaits the
batch jointly, collects all subfolders into a shared worklist, and then
takes `splice(0, Math.min(length, 10))` of that worklist — at most ten
folders — as the next batch, carrying the remainder over.  The batch
schedule is embedded as a fuel-indexed function producing the list of
batches. -/

/-- A folder and its (finite) subtree of subfolders. -/
structure FolderNode where
  id : Str
  children : List FolderNode

/-- Batch schedule of the folder traversal loop: `ps` is the batch
being processed, `buf` the carried-over worklist (`nextFolders`). -/
def foldBatches : Nat → List FolderNode → List FolderNode → List (List FolderNode)
  | 0, _, _ => []
  | _ + 1, [], _ => []
  | fuel + 1, p :: ps, buf =>
    let nb := buf ++ (p :: ps).flatMap (fun f => f.children)
    (p :: ps) :: foldBatches fuel (nb.take 10) (nb.drop 10)

/-- Batches processed by `getContentItems` for the given base folders. -/
def getContentItemsBatches (baseFolders : List FolderNode) (fuel : Nat) :
    List (List FolderNode) :=
  foldBatches fuel baseFolders []

/-- Eleven childless base folders. -/
def elevenFolders : List FolderNode :=
  List.replicate 11 ⟨"f".toList, []⟩

theorem splitLines_ne_nil (s : Str) : splitLines s ≠ [] := by
  induction s with
  | nil => simp [splitLines]
  | cons c rest ih =>
    by_cases h : c = '\n'
    · simp [splitLines, h]
    · simp only [splitLines, if_neg h]
      cases hs : splitLines rest with
      | nil => simp
      | cons l ls => simp

theorem splitLines_no_newline (l : Str) (h : '\n' ∉ l) : splitLines l = [l] := by
  induction l with
  | nil => simp [splitLines]
  | cons c rest ih =>
    have hc : c ≠ '\n' := fun hc => h (hc ▸ List.mem_cons_self c rest)
    have hr : '\n' ∉ rest := fun hm => h (List.mem_cons_of_mem c hm)
    simp only [splitLines, if_neg hc, ih hr]

theorem splitLines_append (l rest : Str) (h : '\n' ∉ l) :
    splitLines (l ++ '\n' :: rest) = l :: splitLines rest := by
  induction l with
  | nil => simp [splitLines]
  | cons c l ih =>
    have hc : c ≠ '\n' := fun hc => h (hc ▸ List.mem_cons_self c l)
    have hl : '\n' ∉ l := fun hm => h (List.mem_cons_of_mem c hm)
    simp only [List.cons_append, splitLines, List.append_eq, if_neg hc, ih hl]

theorem splitLines_joinLines (L : List Str) (hne : L ≠ [])
    (h : ∀ l ∈ L, '\n' ∉ l) : splitLines (joinLines L) = L := by
  induction L with
  | nil => exact absurd rfl hne
  | cons a L ih =>
    cases L with
    | nil => exact splitLines_no_newline a (h a (List.mem_cons_self a []))
    | cons b L =>
      have ha : '\n' ∉ a := h a (List.mem_cons_self _ _)
      have hrest : ∀ l ∈ b :: L, '\n' ∉ l := fun l hl =>
        h l (List.mem_cons_of_mem a hl)
      calc splitLines (joinLines (a :: b :: L))
          = splitLines (a ++ '\n' :: joinLines (b :: L)) := rfl
        _ = a :: splitLines (joinLines (b :: L)) := splitLines_append _ _ ha
        _ = a :: b :: L := by rw [ih (by simp) hrest]

theorem splitFirstSpace_append (v rest : Str) (hv : ' ' ∉ v) :
    splitFirstSpace (v ++ ' ' :: rest) = some (v, rest) := by
  induction v with
  | nil => simp [splitFirstSpace]
  | cons c v ih =>
    have hc : c ≠ ' ' := fun hc => hv (hc ▸ List.mem_cons_self c v)
    have hv2 : ' ' ∉ v := fun hm => hv (List.mem_cons_of_mem c hm)
    simp only [List.cons_append, splitFirstSpace, List.append_eq, if_neg hc,
      ih hv2, Option.map_some']

theorem applyOps_eq (ops : List LogLine) (log : ArchiveLog) :
    applyOps log ops = ⟨log.title, log.entries ++ ops⟩ := by
  induction ops generalizing log with
  | nil => simp [applyOps]
  | cons op ops ih =>
    cases op with
    | action v i =>
      simp only [applyOps, List.foldl_cons] at *
      rw [show applyOp log (.action v i) = addAction v i log from rfl]
      rw [ih]
      simp [addAction]
    | comment t =>
      simp only [applyOps, List.foldl_cons] at *
      rw [show applyOp log (.comment t) = addComment t log from rfl]
      rw [ih]
      simp [addComment]

theorem lineText_no_newline (e : LogLine) (he : goodLine e) :
    '\n' ∉ lineText e := by
  cases e with
  | action v i =>
    obtain ⟨-, -, hv, -, hi⟩ := he
    intro hmem
    simp only [lineText, List.mem_append, List.mem_cons] at hmem
    rcases hmem with h | h | h
    · exact hv h
    · exact absurd h.symm (by decide)
    · exact hi h
  | comment t =>
    intro hmem
    simp only [lineText, List.mem_cons] at hmem
    rcases hmem with h | h | h | h
    · exact absurd h.symm (by decide)
    · exact absurd h.symm (by decide)
    · exact absurd h.symm (by decide)
    · exact he h

theorem parse_lineText (e : LogLine) (he : goodLine e) :
    parseLogLine (lineText e) = some e := by
  cases e with
  | action v i =>
    obtain ⟨hne, hsp, -, htake, -⟩ := he
    have hslash : (v ++ ' ' :: i).take 2 ≠ ['/', '/'] := by
      match v, hne with
      | [a], _ =>
        simp only [List.cons_append, List.nil_append, List.take]
        intro h
        have : (' ' : Char) = '/' := by
          have := List.cons.injEq a _ '/' ['/'] ▸ h
          exact (List.cons_eq_cons.mp (List.cons_eq_cons.mp h).2).1
        exact absurd this (by decide)
      | a :: b :: v, _ =>
        simpa only [List.cons_append, List.take] using htake
    simp only [parseLogLine, lineText, if_neg hslash,
      splitFirstSpace_append v i hsp]
  | comment t =>
    simp [parseLogLine, lineText, dropOneSpace, List.take, List.drop]

theorem filterMap_parse_lineText (L : List LogLine) (h : ∀ e ∈ L, goodLine e) :
    (L.map lineText).filterMap parseLogLine = L := by
  induction L with
  | nil => rfl
  | cons e L ih =>
    have he := h e (List.mem_cons_self _ _)
    have hrest : ∀ x ∈ L, goodLine x := fun x hx => h x (List.mem_cons_of_mem e hx)
    simp only [List.map_cons, List.filterMap_cons, parse_lineText e he, ih hrest]

theorem actionIds_append (verb : Str) (l₁ l₂ : List LogLine) :
    actionIds verb (l₁ ++ l₂) = actionIds verb l₁ ++ actionIds verb l₂ := by
  simp [actionIds, List.filterMap_append]

/-- C1 (amended): the Archive Log round-trip recovers `getData(verb)`
exactly when every recorded verb is space/newline free (and not a comment
marker), and every id, comment and title holds no newline: writing the
log and loading it back yields, for every verb, the ordered ids passed to
`addAction` with that verb, comments and the header excluded. -/
theorem archiveLog_roundTrip (title : Option Str) (ops : List LogLine) (verb : Str)
    (ht : ∀ t, title = some t → '\n' ∉ t) (hops : ∀ op ∈ ops, goodLine op) :
    getData verb (loadFromFile (writeToFile (applyOps (newLog title) ops))) =
      actionIds verb ops := by
  rw [applyOps_eq]
  simp only [newLog, List.nil_append]
  have hgoodAll : ∀ e ∈ headerEntries ⟨title, ops⟩, goodLine e := by
    intro e he
    simp only [headerEntries, List.mem_append] at he
    rcases he with he | he
    · cases title with
      | none => simp at he
      | some t =>
        simp only [List.mem_singleton] at he
        subst he
        exact ht t rfl
    · exact hops e he
  by_cases hnil : headerEntries ⟨title, ops⟩ = []
  · have htitle : title = none := by
      cases title with
      | none => rfl
      | some t => simp [headerEntries] at hnil
    subst htitle
    have hopsnil : ops = [] := by
      simpa only [headerEntries, List.nil_append] using hnil
    subst hopsnil
    simp [writeToFile, loadFromFile, getData, actionIds, headerEntries,
      joinLines, splitLines, parseLogLine, splitFirstSpace]
  · have hmapne : (headerEntries ⟨title, ops⟩).map lineText ≠ [] := by
      intro h
      exact hnil (List.map_eq_nil_iff.mp h)
    have hnonl : ∀ l ∈ (headerEntries ⟨title, ops⟩).map lineText, '\n' ∉ l := by
      intro l hl
      obtain ⟨e, he, rfl⟩ := List.mem_map.mp hl
      exact lineText_no_newline e (hgoodAll e he)
    have hsplit : splitLines (joinLines ((headerEntries ⟨title, ops⟩).map lineText)) =
        (headerEntries ⟨title, ops⟩).map lineText :=
      splitLines_joinLines _ hmapne hnonl
    have hload : loadFromFile (writeToFile ⟨title, ops⟩) =
        ⟨none, headerEntries ⟨title, ops⟩⟩ := by
      simp only [loadFromFile, writeToFile, hsplit,
        filterMap_parse_lineText _ hgoodAll]
    rw [hload]
    simp only [getData]
    cases title with
    | none => simp [headerEntries]
    | some t => simp [headerEntries, actionIds_append, actionIds]

/-- Witness for the amended round-trip theorem at a concrete call
sequence: one archive action, one comment, one unrelated action. -/
theorem archiveLog_roundTrip_witness :
    getData "ARCHIVE".toList
      (loadFromFile (writeToFile (applyOps
        (newLog (some "Content Items Archive Log - 0".toList))
        [.action "ARCHIVE".toList "id1".toList,
         .comment "a note".toList,
         .action "UNARCHIVE".toList "id2".toList,
         .action "ARCHIVE".toList "id3".toList]))) =
      ["id1".toList, "id3".toList] := by
  have := archiveLog_roundTrip (some "Content Items Archive Log - 0".toList)
    [.action "ARCHIVE".toList "id1".toList,
     .comment "a note".toList,
     .action "UNARCHIVE".toList "id2".toList,
     .action "ARCHIVE".toList "id3".toList]
    "ARCHIVE".toList
    (by intro t h; cases h; decide)
    (by intro op hop; fin_cases hop <;> simp only [goodLine] <;> decide)
  rw [this]
  decide

/-- C1 counterexample: the claim quantifies over every call sequence, but
an id holding a newline cannot survive the newline separated file format.
The archive handler itself records ids this way: it calls
`log.addAction('ARCHIVE', id + '\n')`, and the round trip returns the id
with the trailing newline stripped, not the string that was passed. -/
theorem archiveLog_roundTrip_counterexample :
    getData "ARCHIVE".toList
        (loadFromFile (writeToFile (applyOps (newLog none)
          [.action "ARCHIVE".toList ['1', '\n']]))) = [['1']] ∧
      actionIds "ARCHIVE".toList [.action "ARCHIVE".toList ['1', '\n']] =
        [['1', '\n']] ∧
      getData "ARCHIVE".toList
          (loadFromFile (writeToFile (applyOps (newLog none)
            [.action "ARCHIVE".toList ['1', '\n']]))) ≠
        actionIds "ARCHIVE".toList [.action "ARCHIVE".toList ['1', '\n']] := by
  refine ⟨by decide, by decide, by decide⟩

theorem rlang_emp_inv {w : Str} (h : RLang .emp w) : False := by
  cases h

theorem rlang_eps_inv {w : Str} (h : RLang .eps w) : w = [] := by
  cases h
  rfl

theorem rlang_chr_inv {c : Char} {w : Str} (h : RLang (.chr c) w) : w = [c] := by
  cases h
  rfl

theorem rlang_dot_inv {w : Str} (h : RLang .dot w) : ∃ c, w = [c] := by
  cases h with
  | dot c => exact ⟨c, rfl⟩

theorem rlang_alt_inv {p q : Regex} {w : Str} (h : RLang (.alt p q) w) :
    RLang p w ∨ RLang q w := by
  cases h with
  | altL h => exact Or.inl h
  | altR h => exact Or.inr h

theorem rlang_cat_inv {p q : Regex} {w : Str} (h : RLang (.cat p q) w) :
    ∃ s t, w = s ++ t ∧ RLang p s ∧ RLang q t := by
  cases h with
  | cat hp hq => exact ⟨_, _, rfl, hp, hq⟩

theorem nullable_iff (r : Regex) : nullable r = true ↔ RLang r [] := by
  induction r with
  | emp =>
    constructor
    · intro h
      exact absurd h (by decide)
    · intro h
      exact absurd h rlang_emp_inv
  | eps =>
    constructor
    · intro _
      exact .eps
    · intro _
      rfl
  | chr c =>
    constructor
    · intro h
      exact absurd h (by simp [nullable])
    · intro h
      exact absurd (rlang_chr_inv h) (by simp)
  | dot =>
    constructor
    · intro h
      exact absurd h (by decide)
    · intro h
      obtain ⟨c, hc⟩ := rlang_dot_inv h
      exact absurd hc (by simp)
  | alt p q ihp ihq =>
    simp only [nullable, Bool.or_eq_true, ihp, ihq]
    constructor
    · rintro (h | h)
      · exact .altL h
      · exact .altR h
    · intro h
      exact rlang_alt_inv h
  | cat p q ihp ihq =>
    simp only [nullable, Bool.and_eq_true, ihp, ihq]
    constructor
    · rintro ⟨hp, hq⟩
      exact (List.nil_append ([] : Str)) ▸ RLang.cat hp hq
    · intro h
      obtain ⟨s, t, hst, hp, hq⟩ := rlang_cat_inv h
      obtain ⟨hs, ht⟩ := List.append_eq_nil.mp hst.symm
      subst hs
      subst ht
      exact ⟨hp, hq⟩
  | star p ih =>
    simp only [nullable, true_iff]
    exact .starNil p

theorem star_inv {p : Regex} {w : Str} (h : RLang (.star p) w) :
    w = [] ∨ ∃ s t, s ≠ [] ∧ w = s ++ t ∧ RLang p s ∧ RLang (.star p) t := by
  generalize hr : Regex.star p = r at h
  induction h with
  | eps => cases hr
  | chr c => cases hr
  | dot c => cases hr
  | altL h ih => cases hr
  | altR h ih => cases hr
  | cat hp hq ihp ihq => cases hr
  | starNil q => exact Or.inl rfl
  | starApp hs ht ihs iht =>
    cases hr
    rename_i s t
    cases s with
    | nil =>
      simpa using iht rfl
    | cons c s =>
      exact Or.inr ⟨c :: s, t, by simp, rfl, hs, ht⟩

theorem rlang_deriv (r : Regex) (c : Char) :
    ∀ s, RLang (deriv r c) s ↔ RLang r (c :: s) := by
  induction r with
  | emp =>
    intro s
    constructor
    · intro h
      exact absurd h rlang_emp_inv
    · intro h
      exact absurd h rlang_emp_inv
  | eps =>
    intro s
    constructor
    · intro h
      exact absurd h rlang_emp_inv
    · intro h
      exact absurd (rlang_eps_inv h) (by simp)
  | chr a =>
    intro s
    by_cases hc : c = a
    · subst hc
      simp only [deriv, if_pos rfl]
      constructor
      · intro h
        rw [rlang_eps_inv h]
        exact .chr c
      · intro h
        have := rlang_chr_inv h
        simp only [List.cons.injEq] at this
        rw [this.2]
        exact .eps
    · simp only [deriv, if_neg hc]
      constructor
      · intro h
        exact absurd h rlang_emp_inv
      · intro h
        have := rlang_chr_inv h
        simp only [List.cons.injEq] at this
        exact absurd this.1 hc
  | dot =>
    intro s
    simp only [deriv]
    constructor
    · intro h
      rw [rlang_eps_inv h]
      exact .dot c
    · intro h
      obtain ⟨a, ha⟩ := rlang_dot_inv h
      simp only [List.cons.injEq] at ha
      rw [ha.2]
      exact .eps
  | alt p q ihp ihq =>
    intro s
    simp only [deriv]
    constructor
    · intro h
      rcases rlang_alt_inv h with h | h
      · exact .altL ((ihp s).mp h)
      · exact .altR ((ihq s).mp h)
    · intro h
      rcases rlang_alt_inv h with h | h
      · exact .altL ((ihp s).mpr h)
      · exact .altR ((ihq s).mpr h)
  | cat p q ihp ihq =>
    intro s
    by_cases hn : nullable p = true
    · simp only [deriv, if_pos hn]
      constructor
      · intro h
        rcases rlang_alt_inv h with h | h
        · obtain ⟨u, v, huv, hu, hv⟩ := rlang_cat_inv h
          subst huv
          exact (List.cons_append c u v).symm ▸ RLang.cat ((ihp u).mp hu) hv
        · have hp0 : RLang p [] := (nullable_iff p).mp hn
          have := RLang.cat hp0 ((ihq s).mp h)
          simpa using this
      · intro h
        obtain ⟨u, v, huv, hu, hv⟩ := rlang_cat_inv h
        cases u with
        | nil =>
          simp only [List.nil_append] at huv
          subst huv
          exact .altR ((ihq s).mpr hv)
        | cons c' u =>
          simp only [List.cons_append, List.cons.injEq] at huv
          obtain ⟨hc', hs⟩ := huv
          subst hc'
          subst hs
          exact .altL (RLang.cat ((ihp u).mpr hu) hv)
    · simp only [deriv, if_neg hn]
      constructor
      · intro h
        obtain ⟨u, v, huv, hu, hv⟩ := rlang_cat_inv h
        subst huv
        exact (List.cons_append c u v).symm ▸ RLang.cat ((ihp u).mp hu) hv
      · intro h
        obtain ⟨u, v, huv, hu, hv⟩ := rlang_cat_inv h
        cases u with
        | nil =>
          exact absurd ((nullable_iff p).mpr hu) (by simpa using hn)
        | cons c' u =>
          simp only [List.cons_append, List.cons.injEq] at huv
          obtain ⟨hc', hs⟩ := huv
          subst hc'
          subst hs
          exact RLang.cat ((ihp u).mpr hu) hv
  | star p ih =>
    intro s
    simp only [deriv]
    constructor
    · intro h
      obtain ⟨u, v, huv, hu, hv⟩ := rlang_cat_inv h
      subst huv
      have := RLang.starApp ((ih u).mp hu) hv
      simpa using this
    · intro h
      rcases star_inv h with h0 | ⟨a, t, hane, heq, hpa, hst⟩
      · cases h0
      · cases a with
        | nil => exact absurd rfl hane
        | cons a0 a =>
          simp only [List.cons_append, List.cons.injEq] at heq
          obtain ⟨ha0, hs⟩ := heq
          subst ha0
          subst hs
          exact RLang.cat ((ih a).mpr hpa) hst

theorem matchR_iff (s : Str) : ∀ r, matchR r s = true ↔ RLang r s := by
  induction s with
  | nil => exact fun r => nullable_iff r
  | cons c s ih =>
    intro r
    have : matchR r (c :: s) = matchR (deriv r c) s := rfl
    rw [this, ih (deriv r c)]
    exact rlang_deriv r c s

theorem matchAnywhere_iff (r : Regex) (s : Str) :
    matchAnywhere r s = true ↔ MatchesWithin r s := by
  simp only [matchAnywhere, List.any_eq_true, List.mem_tails, List.mem_inits]
  constructor
  · rintro ⟨t, ⟨pre, hpre⟩, p, ⟨post, hpost⟩, hm⟩
    exact ⟨pre, p, post, by rw [← hpre, ← hpost, List.append_assoc],
      (matchR_iff p r).mp hm⟩
  · rintro ⟨pre, mid, post, heq, hm⟩
    exact ⟨mid ++ post, ⟨pre, by rw [heq, List.append_assoc]⟩, mid,
      ⟨post, rfl⟩, (matchR_iff mid r).mpr hm⟩

/-- C3: `equalsOrRegex` returns true exactly when the `/body/` pattern
matches some substring of the value under the declarative regular
expression semantics, or a plain pattern equals the value; a pattern
list keeps an entity iff at least one pattern matches (OR semantics);
and the pattern `/schemaMatch/` applied to the four scenario ids keeps
exactly `schemaMatch1` and `schemaMatch2`, in order. -/
theorem equalsOrRegex_spec :
    (∀ value pattern, equalsOrRegex value pattern = true ↔
      ((isRegexPattern pattern = true ∧
          MatchesWithin (buildRegex (patternBody pattern)) value) ∨
       (isRegexPattern pattern = false ∧ pattern = value))) ∧
    (∀ patterns vals v, v ∈ filterByPatterns patterns vals ↔
      (v ∈ vals ∧ ∃ p ∈ patterns, equalsOrRegex v p = true)) ∧
    filterByPatterns ["/schemaMatch/".toList]
        ["schema1".toList, "schemaMatch1".toList, "schemaMatch2".toList,
         "schemaBanana".toList] =
      ["schemaMatch1".toList, "schemaMatch2".toList] := by
  refine ⟨?_, ?_, ?_⟩
  · intro value pattern
    by_cases h : isRegexPattern pattern = true
    · have he : equalsOrRegex value pattern =
          matchAnywhere (buildRegex (patternBody pattern)) value := by
        simp [equalsOrRegex, h]
      rw [he, matchAnywhere_iff]
      constructor
      · intro hm
        exact Or.inl ⟨h, hm⟩
      · rintro (⟨-, hm⟩ | ⟨hf, -⟩)
        · exact hm
        · exact absurd h (by simp [hf])
    · have hf : isRegexPattern pattern = false := by
        cases hb : isRegexPattern pattern
        · rfl
        · exact absurd hb h
      have he : equalsOrRegex value pattern = decide (value = pattern) := by
        simp [equalsOrRegex, hf]
      rw [he]
      simp only [decide_eq_true_eq]
      constructor
      · intro hv
        exact Or.inr ⟨hf, hv.symm⟩
      · rintro (⟨ht, -⟩ | ⟨-, hp⟩)
        · exact absurd ht h
        · exact hp.symm
  · intro patterns vals v
    simp [filterByPatterns, anyPatternMatches, List.mem_filter,
      List.any_eq_true]
  · decide

/-- C4: the export record is CREATED with the freshly allocated unique
filename when no previous entry carries the schema id, UP-TO-DATE with
the existing filename when the matching entry has an identical body, and
UPDATED keeping the existing filename (independent of the allocator)
when the bodies differ; with a matching identical-body entry, two calls
— even under different allocations — return the same UP-TO-DATE record,
so the function is idempotent. -/
theorem getExportRecordFor_spec (schema : ContentTypeSchema) (freshName : Str)
    (prev : List (Str × ContentTypeSchema)) :
    (lookupBySchemaId prev schema.schemaId = none →
      getExportRecordForContentTypeSchema schema freshName prev =
        ⟨freshName, .created, schema⟩ ∧
      (freshName ∉ prev.map Prod.fst →
        (getExportRecordForContentTypeSchema schema freshName prev).filename ∉
          prev.map Prod.fst)) ∧
    (∀ fn prevSchema,
      lookupBySchemaId prev schema.schemaId = some (fn, prevSchema) →
      prevSchema.body = schema.body →
      getExportRecordForContentTypeSchema schema freshName prev =
        ⟨fn, .upToDate, schema⟩) ∧
    (∀ fn prevSchema,
      lookupBySchemaId prev schema.schemaId = some (fn, prevSchema) →
      prevSchema.body ≠ schema.body →
      getExportRecordForContentTypeSchema schema freshName prev =
        ⟨fn, .updated, schema⟩) ∧
    (∀ fn prevSchema otherFresh,
      lookupBySchemaId prev schema.schemaId = some (fn, prevSchema) →
      prevSchema.body = schema.body →
      getExportRecordForContentTypeSchema schema freshName prev =
        getExportRecordForContentTypeSchema schema otherFresh prev ∧
      (getExportRecordForContentTypeSchema schema freshName prev).status =
        .upToDate ∧
      (getExportRecordForContentTypeSchema schema freshName prev).filename = fn) := by
  refine ⟨?_, ?_, ?_, ?_⟩
  · intro hnone
    have hrec : getExportRecordForContentTypeSchema schema freshName prev =
        ⟨freshName, .created, schema⟩ := by
      unfold getExportRecordForContentTypeSchema
      rw [hnone]
    constructor
    · exact hrec
    · intro hfresh
      rw [hrec]
      exact hfresh
  · intro fn prevSchema hfound hbody
    unfold getExportRecordForContentTypeSchema
    rw [hfound]
    simp [hbody]
  · intro fn prevSchema hfound hbody
    unfold getExportRecordForContentTypeSchema
    rw [hfound]
    simp [hbody]
  · intro fn prevSchema otherFresh hfound hbody
    have hrec : ∀ nm, getExportRecordForContentTypeSchema schema nm prev =
        ⟨fn, .upToDate, schema⟩ := by
      intro nm
      unfold getExportRecordForContentTypeSchema
      rw [hfound]
      simp [hbody]
    refine ⟨?_, ?_, ?_⟩ <;> simp [hrec]

/-- Witness for the export record theorem: a concrete previous export
with a matching, identical schema yields UP-TO-DATE with the old
filename, and an unmatched schema yields CREATED with the fresh name. -/
theorem getExportRecordFor_spec_witness :
    getExportRecordForContentTypeSchema
        ⟨"schema-id-2".toList, "body-2".toList⟩ "new-file.json".toList
        [("file-2.json".toList, ⟨"schema-id-2".toList, "body-2".toList⟩)] =
      ⟨"file-2.json".toList, .upToDate,
        ⟨"schema-id-2".toList, "body-2".toList⟩⟩ := by
  have h := (getExportRecordFor_spec
    ⟨"schema-id-2".toList, "body-2".toList⟩ "new-file.json".toList
    [("file-2.json".toList, ⟨"schema-id-2".toList, "body-2".toList⟩)]).2.1
    "file-2.json".toList ⟨"schema-id-2".toList, "body-2".toList⟩
    (by decide) (by decide)
  exact h

/-- C5: `processContentTypeSchemas` prompts at most once per invocation
— exactly once when some record is UPDATED; a decline exits non-zero
and writes nothing; an accepted prompt (or a batch without updates)
writes exactly the CREATED/UPDATED files, the UP-TO-DATE records causing
no write. -/
theorem processContentTypeSchemas_spec (alloc : Nat → Str)
    (prev : List (Str × ContentTypeSchema)) (schemas : List ContentTypeSchema)
    (confirmAnswer : Bool) :
    (processContentTypeSchemas alloc prev schemas confirmAnswer).promptCount ≤ 1 ∧
    ((processContentTypeSchemas alloc prev schemas confirmAnswer).promptCount = 1 ↔
      ∃ r ∈ getContentTypeSchemaExports alloc prev schemas, r.status = .updated) ∧
    ((∃ r ∈ getContentTypeSchemaExports alloc prev schemas, r.status = .updated) →
      confirmAnswer = false →
      (processContentTypeSchemas alloc prev schemas confirmAnswer).exitedNonZero = true ∧
      (processContentTypeSchemas alloc prev schemas confirmAnswer).written = []) ∧
    ((confirmAnswer = true ∨
        ¬∃ r ∈ getContentTypeSchemaExports alloc prev schemas, r.status = .updated) →
      (processContentTypeSchemas alloc prev schemas confirmAnswer).exitedNonZero = false ∧
      (processContentTypeSchemas alloc prev schemas confirmAnswer).written =
        pendingWrites (getContentTypeSchemaExports alloc prev schemas)) := by
  have hex : (((getContentTypeSchemaExports alloc prev schemas).filter
      (fun r => decide (r.status = .updated))).isEmpty = true) ↔
      ¬∃ r ∈ getContentTypeSchemaExports alloc prev schemas, r.status = .updated := by
    rw [List.isEmpty_iff, List.filter_eq_nil_iff]
    simp
  by_cases hupd : ∃ r ∈ getContentTypeSchemaExports alloc prev schemas,
      r.status = .updated
  · have hne : ((getContentTypeSchemaExports alloc prev schemas).filter
        (fun r => decide (r.status = .updated))).isEmpty = false := by
      cases hb : ((getContentTypeSchemaExports alloc prev schemas).filter
        (fun r => decide (r.status = .updated))).isEmpty
      · rfl
      · exact absurd hupd (hex.mp hb)
    cases confirmAnswer with
    | true =>
      refine ⟨?_, ?_, ?_, ?_⟩ <;>
        simp [processContentTypeSchemas, hne, hupd]
    | false =>
      refine ⟨?_, ?_, ?_, ?_⟩ <;>
        simp [processContentTypeSchemas, hne, hupd]
  · have he : ((getContentTypeSchemaExports alloc prev schemas).filter
        (fun r => decide (r.status = .updated))).isEmpty = true := hex.mpr hupd
    refine ⟨?_, ?_, ?_, ?_⟩ <;>
      simp [processContentTypeSchemas, he, hupd]

/-- Witness for the process theorem: one unchanged and one changed
schema against a previous export, with the prompt declined, exits
non-zero and writes nothing. -/
theorem processContentTypeSchemas_spec_witness :
    (processContentTypeSchemas (fun _ => "new.json".toList)
        [("f1.json".toList, ⟨"id1".toList, "b1".toList⟩),
         ("f2.json".toList, ⟨"id2".toList, "b2".toList⟩)]
        [⟨"id1".toList, "b1".toList⟩, ⟨"id2".toList, "b2x".toList⟩]
        false).exitedNonZero = true ∧
    (processContentTypeSchemas (fun _ => "new.json".toList)
        [("f1.json".toList, ⟨"id1".toList, "b1".toList⟩),
         ("f2.json".toList, ⟨"id2".toList, "b2".toList⟩)]
        [⟨"id1".toList, "b1".toList⟩, ⟨"id2".toList, "b2x".toList⟩]
        false).written = [] := by
  have h := (processContentTypeSchemas_spec (fun _ => "new.json".toList)
    [("f1.json".toList, ⟨"id1".toList, "b1".toList⟩),
     ("f2.json".toList, ⟨"id2".toList, "b2".toList⟩)]
    [⟨"id1".toList, "b1".toList⟩, ⟨"id2".toList, "b2x".toList⟩]
    false).2.2.1
  exact h (by decide) rfl

theorem runSelected_sel (verb : Str) (args : HandlerArgs) (env : HandlerEnv)
    (msgs : List Msg) (fById fList : Bool) (items : List ContentItem)
    (ac ms : Bool) :
    (runSelected verb args env msgs fById fList items ac ms).selected = items := by
  unfold runSelected
  by_cases h : items.isEmpty
  · rw [if_pos h]
  · rw [if_neg h]
    by_cases h2 : (args.force || env.confirmAnswer) = true
    · rw [if_pos h2]
    · rw [if_neg h2]

theorem runSelected_missing (verb : Str) (args : HandlerArgs) (env : HandlerEnv)
    (msgs : List Msg) (fById fList : Bool) (items : List ContentItem)
    (ac ms : Bool) :
    (runSelected verb args env msgs fById fList items ac ms).missingContentFlag = ms := by
  unfold runSelected
  by_cases h : items.isEmpty
  · rw [if_pos h]
  · rw [if_neg h]
    by_cases h2 : (args.force || env.confirmAnswer) = true
    · rw [if_pos h2]
    · rw [if_neg h2]

theorem runSelected_empty (verb : Str) (args : HandlerArgs) (env : HandlerEnv)
    (msgs : List Msg) (fById fList : Bool) (items : List ContentItem)
    (ac ms : Bool)
    (h : (runSelected verb args env msgs fById fList items ac ms).selected = []) :
    Untouched (runSelected verb args env msgs fById fList items ac ms) := by
  rw [runSelected_sel] at h
  subst h
  exact ⟨rfl, rfl, rfl, rfl⟩

theorem abortOutcome_untouched (msgs : List Msg) (fById fList : Bool) :
    Untouched (abortOutcome msgs fById fList) :=
  ⟨rfl, rfl, rfl, rfl⟩

/-- C10: whenever a handler run ends with an empty selected item set —
after fetching and filtering, or after an early abort — no confirmation
prompt is shown, no archive/unarchive call is attempted, and no log file
is written. -/
theorem handler_empty_selection (verb revertVerb : Str) (args : HandlerArgs)
    (env : HandlerEnv)
    (h : (contentItemHandler verb revertVerb args env).selected = []) :
    Untouched (contentItemHandler verb revertVerb args env) := by
  revert h
  simp only [contentItemHandler]
  repeat' split
  all_goals
    first
      | (intro _; exact ⟨rfl, rfl, rfl, rfl⟩)
      | exact runSelected_empty _ _ _ _ _ _ _ _ _

/-- Witness for the empty-selection theorem: an empty hub, no filters:
nothing is prompted, attempted or written. -/
theorem handler_empty_selection_witness :
    (contentItemHandler "ARCHIVE".toList "UNARCHIVE".toList
        ⟨none, none, none, none, none, none, false, false, false,
          some "log.txt".toList⟩ demoEnv).selected = [] ∧
    Untouched (contentItemHandler "ARCHIVE".toList "UNARCHIVE".toList
        ⟨none, none, none, none, none, none, false, false, false,
          some "log.txt".toList⟩ demoEnv) := by
  refine ⟨by decide, ?_⟩
  exact handler_empty_selection "ARCHIVE".toList "UNARCHIVE".toList
    ⟨none, none, none, none, none, none, false, false, false,
      some "log.txt".toList⟩ demoEnv (by decide)

/-- C8 (amended): when both an id and a name are given, the conflict
message is reported, the handler aborts before any remote call — nothing
fetched, nothing attempted, no prompt, no log write — and the handler
returns normally: neither handler calls `process.exit`, so the process
exit code stays zero. -/
theorem handler_conflict_abort (verb revertVerb : Str) (args : HandlerArgs)
    (env : HandlerEnv) (hid : strTruthy args.itemId = true)
    (hname : nameTruthy args.name = true) :
    Msg.conflictIdName ∈ (contentItemHandler verb revertVerb args env).messages ∧
    (contentItemHandler verb revertVerb args env).fetchedById = false ∧
    (contentItemHandler verb revertVerb args env).fetchedList = false ∧
    (contentItemHandler verb revertVerb args env).promptShown = false ∧
    (contentItemHandler verb revertVerb args env).attempts = 0 ∧
    (contentItemHandler verb revertVerb args env).successes = 0 ∧
    (contentItemHandler verb revertVerb args env).logWritten = none ∧
    (contentItemHandler verb revertVerb args env).exitedNonZero = false := by
  have hcond : (strTruthy args.itemId && nameTruthy args.name) = true := by
    rw [hid, hname]
    rfl
  simp [contentItemHandler, hcond, abortOutcome]

/-- C8 counterexample: at a run with both an id and a name, the handler
does abort with the conflict message, but no non-zero process exit
occurs — the handler simply returns, so the process exits normally,
contradicting the claimed non-zero exit. -/
theorem handler_conflict_counterexample :
    Msg.conflictIdName ∈ (contentItemHandler "ARCHIVE".toList
        "UNARCHIVE".toList conflictArgs demoEnv).messages ∧
    (contentItemHandler "ARCHIVE".toList "UNARCHIVE".toList conflictArgs
        demoEnv).exitedNonZero = false := by
  decide

/-- Witness for the conflict-abort theorem at concrete arguments. -/
theorem handler_conflict_abort_witness :
    Msg.conflictIdName ∈ (contentItemHandler "UNARCHIVE".toList
        "ARCHIVE".toList conflictArgs demoEnv).messages ∧
    (contentItemHandler "UNARCHIVE".toList "ARCHIVE".toList conflictArgs
        demoEnv).attempts = 0 := by
  have h := handler_conflict_abort "UNARCHIVE".toList "ARCHIVE".toList
    conflictArgs demoEnv (by decide) (by decide)
  exact ⟨h.1, h.2.2.2.2.1⟩

/-- C2 (amended): when the remote call for the first item fails, two
comment lines are appended — one holding the failing id, one the error
text — and no action line is recorded for that item; without
`ignoreError` the loop halts at once with exactly one attempt and zero
successes, leaving the remaining items unattempted, while with
`ignoreError` the loop records the two comments and continues with the
remaining items. -/
theorem processLoop_failure (verb : Str) (opFail : Str → Option Str)
    (item : ContentItem) (rest : List ContentItem) (log : ArchiveLog)
    (err : Str) (h : opFail item.id = some err) :
    processLoop verb opFail false (item :: rest) log =
      ⟨addComment err (addComment (verb ++ " FAILED: ".toList ++ item.id) log),
        0, 1, [.failedItem item.label item.id err]⟩ ∧
    (∀ v, actionIds v
        (processLoop verb opFail false (item :: rest) log).log.entries =
      actionIds v log.entries) ∧
    processLoop verb opFail true (item :: rest) log =
      (let r := processLoop verb opFail true rest
        (addComment err (addComment (verb ++ " FAILED: ".toList ++ item.id) log))
       ⟨r.log, r.successes, r.attempts + 1,
        .failedItem item.label item.id err :: r.messages⟩) := by
  refine ⟨?_, ?_, ?_⟩
  · simp only [processLoop, h]
    rfl
  · intro v
    simp only [processLoop, h]
    simp [addComment, actionIds_append, actionIds]
  · simp only [processLoop, h]
    rfl

/-- C2 counterexample: with five fetched items and the first remote call
failing (without `ignoreError`), exactly one attempt is made and zero
successes are recorded, but two comment lines — not one — are appended
for the failure. -/
theorem processLoop_failure_counterexample :
    (processLoop "ARCHIVE".toList demoFail false demoItems (newLog none)).attempts = 1 ∧
    (processLoop "ARCHIVE".toList demoFail false demoItems (newLog none)).successes = 0 ∧
    commentCount (processLoop "ARCHIVE".toList demoFail false demoItems
      (newLog none)).log = 2 ∧
    (2 : Nat) ≠ 1 := by
  refine ⟨by decide, by decide, by decide, by decide⟩

/-- Witness for the failure theorem at the five demonstration items. -/
theorem processLoop_failure_witness :
    processLoop "ARCHIVE".toList demoFail false demoItems (newLog none) =
      ⟨addComment "Error: Error".toList
          (addComment ("ARCHIVE".toList ++ " FAILED: ".toList ++ "i1".toList)
            (newLog none)),
        0, 1,
        [.failedItem "item1".toList "i1".toList "Error: Error".toList]⟩ := by
  exact (processLoop_failure "ARCHIVE".toList demoFail demoItem1 demoRest
    (newLog none) "Error: Error".toList (by decide)).1

/-- C6: with a revert log given (and no explicit id), a successful log
read targets exactly the fetched items whose id occurs in the replayed
verb data of the loaded log, preserving the fetched order, and the
missing-content flag is set precisely when the number of targeted items
differs from the number of logged ids; a failed log read aborts the run
with nothing prompted, attempted or written. -/
theorem handler_revertLog_replay (verb revertVerb : Str) (args : HandlerArgs)
    (env : HandlerEnv) (path : Str) (fetched : List ContentItem)
    (hid : args.itemId = none) (hrev : args.revertLog = some path)
    (hall : env.fetchAll = .ok fetched) :
    (∀ content, env.readFile path = .ok content →
      ((contentItemHandler verb revertVerb args env).selected =
        fetched.filter (fun ci =>
          decide (ci.id ∈ getData revertVerb (loadFromFile content))) ∧
      (∀ ci, ci ∈ (contentItemHandler verb revertVerb args env).selected ↔
        ci ∈ fetched ∧ ci.id ∈ getData revertVerb (loadFromFile content)) ∧
      ((contentItemHandler verb revertVerb args env).selected).Sublist fetched ∧
      ((contentItemHandler verb revertVerb args env).missingContentFlag = true ↔
        ((contentItemHandler verb revertVerb args env).selected).length ≠
          (getData revertVerb (loadFromFile content)).length))) ∧
    (∀ e, env.readFile path = .error e →
      (contentItemHandler verb revertVerb args env).selected = [] ∧
      Untouched (contentItemHandler verb revertVerb args env)) := by
  constructor
  · intro content hcontent
    have hsel : (contentItemHandler verb revertVerb args env).selected =
        (selectByRevertLog revertVerb (loadFromFile content) fetched).1 := by
      simp [contentItemHandler, strTruthy, hid, hall, hrev, hcontent,
        runSelected_sel]
    have hmiss : (contentItemHandler verb revertVerb args env).missingContentFlag =
        (selectByRevertLog revertVerb (loadFromFile content) fetched).2 := by
      simp [contentItemHandler, strTruthy, hid, hall, hrev, hcontent,
        runSelected_missing]
    have hselval : (selectByRevertLog revertVerb (loadFromFile content) fetched).1 =
        fetched.filter (fun ci =>
          decide (ci.id ∈ getData revertVerb (loadFromFile content))) := rfl
    refine ⟨hsel.trans hselval, ?_, ?_, ?_⟩
    · intro ci
      rw [hsel, hselval]
      simp [List.mem_filter]
    · rw [hsel, hselval]
      exact List.filter_sublist _
    · rw [hsel, hmiss, hselval]
      simp [selectByRevertLog]
  · intro e herr
    refine ⟨?_, ?_, ?_, ?_, ?_⟩ <;>
      simp [contentItemHandler, strTruthy, hid, hall, hrev, herr, abortOutcome,
        Untouched]

/-- Witness for the revert-log theorem: a log holding ARCHIVE actions
for ids i1 and i3 plus a missing id selects exactly those two of the
five fetched items and sets the missing-content flag. -/
theorem handler_revertLog_replay_witness :
    (contentItemHandler "UNARCHIVE".toList "ARCHIVE".toList
        ⟨none, none, none, none, none, some "revert.log".toList, true, true,
          false, some "log.txt".toList⟩
        ⟨fun _ => .error "notfound".toList, .ok demoItems,
          fun _ => .ok "// header\nARCHIVE i1\nARCHIVE i3\nARCHIVE iMissing".toList,
          fun _ => none, true, "0".toList⟩).selected =
      [demoItem1, ⟨"i3".toList, "item3".toList, none⟩] ∧
    (contentItemHandler "UNARCHIVE".toList "ARCHIVE".toList
        ⟨none, none, none, none, none, some "revert.log".toList, true, true,
          false, some "log.txt".toList⟩
        ⟨fun _ => .error "notfound".toList, .ok demoItems,
          fun _ => .ok "// header\nARCHIVE i1\nARCHIVE i3\nARCHIVE iMissing".toList,
          fun _ => none, true, "0".toList⟩).missingContentFlag = true := by
  have h := handler_revertLog_replay "UNARCHIVE".toList "ARCHIVE".toList
    ⟨none, none, none, none, none, some "revert.log".toList, true, true,
      false, some "log.txt".toList⟩
    ⟨fun _ => .error "notfound".toList, .ok demoItems,
      fun _ => .ok "// header\nARCHIVE i1\nARCHIVE i3\nARCHIVE iMissing".toList,
      fun _ => none, true, "0".toList⟩
    "revert.log".toList demoItems rfl rfl rfl
  obtain ⟨hsel, -, -, hflag⟩ := h.1
    "// header\nARCHIVE i1\nARCHIVE i3\nARCHIVE iMissing".toList rfl
  constructor
  · rw [hsel]
    decide
  · rw [hflag, hsel]
    decide

theorem resolveMissing_mem (fetch : Str → Option RemoteItem) :
    ∀ (mids : List Str) (pi : PathedItem),
      pi ∈ (resolveMissing fetch mids).1 ↔
        (pi.path = depPath ∧ pi.item.status = .active ∧
          ∃ mid ∈ mids, fetch mid = some pi.item) := by
  intro mids
  induction mids with
  | nil =>
    intro pi
    simp [resolveMissing]
  | cons mid rest ih =>
    intro pi
    obtain ⟨pp, pit⟩ := pi
    simp only [resolveMissing]
    cases hf : fetch mid with
    | none =>
      simp only [ih, List.mem_cons]
      constructor
      · rintro ⟨h1, h2, m, hm, hfm⟩
        exact ⟨h1, h2, m, Or.inr hm, hfm⟩
      · rintro ⟨h1, h2, m, hm | hm, hfm⟩
        · rw [hm, hf] at hfm
          cases hfm
        · exact ⟨h1, h2, m, hm, hfm⟩
    | some it =>
      by_cases hs : it.status = .active
      · simp only [if_pos hs, List.mem_cons, ih]
        constructor
        · rintro (heq | ⟨h1, h2, m, hm, hfm⟩)
          · injection heq with heq1 heq2
            subst heq1
            subst heq2
            exact ⟨rfl, hs, mid, Or.inl rfl, hf⟩
          · exact ⟨h1, h2, m, Or.inr hm, hfm⟩
        · rintro ⟨h1, h2, m, hm, hfm⟩
          rcases hm with hm | hm
          · rw [hm, hf] at hfm
            injection hfm with hit
            subst h1
            rw [hit]
            exact Or.inl rfl
          · exact Or.inr ⟨h1, h2, m, hm, hfm⟩
      · simp only [if_neg hs, ih]
        constructor
        · rintro ⟨h1, h2, m, hm, hfm⟩
          exact ⟨h1, h2, m, List.mem_cons_of_mem _ hm, hfm⟩
        · rintro ⟨h1, h2, m, hm, hfm⟩
          rcases List.mem_cons.mp hm with hm | hm
          · rw [hm, hf] at hfm
            injection hfm with hit
            rw [← hit] at h2
            exact absurd h2 hs
          · exact ⟨h1, h2, m, hm, hfm⟩

theorem resolveMissing_notes (fetch : Str → Option RemoteItem) :
    ∀ (mids : List Str) (mid : Str), mid ∈ mids →
      (∀ it, fetch mid = some it → it.status = .active →
        DepNote.added it.label ∈ (resolveMissing fetch mids).2) ∧
      (∀ it, fetch mid = some it → it.status = .archived →
        DepNote.archivedNote it.label ∈ (resolveMissing fetch mids).2) ∧
      (fetch mid = none →
        DepNote.notExist mid ∈ (resolveMissing fetch mids).2) := by
  intro mids
  induction mids with
  | nil =>
    intro mid hm
    simp at hm
  | cons m rest ih =>
    intro mid hm
    rcases List.mem_cons.mp hm with heq | hmem
    · subst heq
      refine ⟨?_, ?_, ?_⟩
      · intro it hit hact
        simp only [resolveMissing, hit, if_pos hact]
        exact List.mem_cons_self _ _
      · intro it hit harch
        have hna : ¬ it.status = .active := by
          rw [harch]
          intro h
          cases h
        simp only [resolveMissing, hit, if_neg hna]
        exact List.mem_cons_self _ _
      · intro hnone
        simp only [resolveMissing, hnone]
        exact List.mem_cons_self _ _
    · have hrest := ih mid hmem
      refine ⟨?_, ?_, ?_⟩
      · intro it hit hact
        have := hrest.1 it hit hact
        simp only [resolveMissing]
        cases hf : fetch m with
        | none => exact List.mem_cons_of_mem _ this
        | some it2 =>
          by_cases hs : it2.status = .active
          · simp only [if_pos hs]
            exact List.mem_cons_of_mem _ this
          · simp only [if_neg hs]
            exact List.mem_cons_of_mem _ this
      · intro it hit harch
        have := hrest.2.1 it hit harch
        simp only [resolveMissing]
        cases hf : fetch m with
        | none => exact List.mem_cons_of_mem _ this
        | some it2 =>
          by_cases hs : it2.status = .active
          · simp only [if_pos hs]
            exact List.mem_cons_of_mem _ this
          · simp only [if_neg hs]
            exact List.mem_cons_of_mem _ this
      · intro hnone
        have := hrest.2.2 hnone
        simp only [resolveMissing]
        cases hf : fetch m with
        | none => exact List.mem_cons_of_mem _ this
        | some it2 =>
          by_cases hs : it2.status = .active
          · simp only [if_pos hs]
            exact List.mem_cons_of_mem _ this
          · simp only [if_neg hs]
            exact List.mem_cons_of_mem _ this

/-- C7: for every referenced-but-absent id, an existing ACTIVE item is
appended to the working set under `_dependancies/` (and hence exported)
with a log note; an existing archived item is never appended but is
noted in the log; a nonexistent id is reported in the log — so no
missing reference is silently dropped. -/
theorem exportDeps_spec (fetch : Str → Option RemoteItem)
    (missingIds : List Str) (items : List PathedItem) :
    (∀ mid ∈ missingIds, ∀ it, fetch mid = some it → it.status = .active →
      (⟨depPath, it⟩ : PathedItem) ∈ (resolveMissing fetch missingIds).1 ∧
      (⟨depPath, it⟩ : PathedItem) ∈ exportWorkingSet items fetch missingIds ∧
      DepNote.added it.label ∈ (resolveMissing fetch missingIds).2) ∧
    (∀ mid ∈ missingIds, ∀ it, fetch mid = some it → it.status = .archived →
      (∀ p, (⟨p, it⟩ : PathedItem) ∉ (resolveMissing fetch missingIds).1) ∧
      DepNote.archivedNote it.label ∈ (resolveMissing fetch missingIds).2) ∧
    (∀ mid ∈ missingIds, fetch mid = none →
      DepNote.notExist mid ∈ (resolveMissing fetch missingIds).2) ∧
    (∀ mid ∈ missingIds,
      (∃ it, fetch mid = some it ∧
        (⟨depPath, it⟩ : PathedItem) ∈ (resolveMissing fetch missingIds).1) ∨
      (∃ it, fetch mid = some it ∧
        DepNote.archivedNote it.label ∈ (resolveMissing fetch missingIds).2) ∨
      (fetch mid = none ∧
        DepNote.notExist mid ∈ (resolveMissing fetch missingIds).2)) := by
  refine ⟨?_, ?_, ?_, ?_⟩
  · intro mid hm it hit hact
    have hmem : (⟨depPath, it⟩ : PathedItem) ∈ (resolveMissing fetch missingIds).1 :=
      (resolveMissing_mem fetch missingIds ⟨depPath, it⟩).mpr
        ⟨rfl, hact, mid, hm, hit⟩
    exact ⟨hmem, List.mem_append_right _ hmem,
      (resolveMissing_notes fetch missingIds mid hm).1 it hit hact⟩
  · intro mid hm it hit harch
    refine ⟨?_, (resolveMissing_notes fetch missingIds mid hm).2.1 it hit harch⟩
    intro p hp
    have := ((resolveMissing_mem fetch missingIds ⟨p, it⟩).mp hp).2.1
    rw [harch] at this
    cases this
  · intro mid hm hnone
    exact (resolveMissing_notes fetch missingIds mid hm).2.2 hnone
  · intro mid hm
    cases hf : fetch mid with
    | some it =>
      cases hs : it.status with
      | active =>
        exact Or.inl ⟨it, rfl,
          (resolveMissing_mem fetch missingIds ⟨depPath, it⟩).mpr
            ⟨rfl, hs, mid, hm, hf⟩⟩
      | archived =>
        exact Or.inr (Or.inl ⟨it, rfl,
          (resolveMissing_notes fetch missingIds mid hm).2.1 it hf hs⟩)
    | none =>
      exact Or.inr (Or.inr ⟨rfl,
        (resolveMissing_notes fetch missingIds mid hm).2.2 hf⟩)

/-- Witness for the dependency-resolution theorem: one active, one
archived and one nonexistent referenced id. -/
theorem exportDeps_spec_witness :
    (⟨depPath, ⟨"a1".toList, "Active".toList, .active⟩⟩ : PathedItem) ∈
      (resolveMissing
        (fun i =>
          if i = "a1".toList then some ⟨"a1".toList, "Active".toList, .active⟩
          else if i = "a2".toList then
            some ⟨"a2".toList, "Archived".toList, .archived⟩
          else none)
        ["a1".toList, "a2".toList, "a3".toList]).1 ∧
    DepNote.archivedNote "Archived".toList ∈
      (resolveMissing
        (fun i =>
          if i = "a1".toList then some ⟨"a1".toList, "Active".toList, .active⟩
          else if i = "a2".toList then
            some ⟨"a2".toList, "Archived".toList, .archived⟩
          else none)
        ["a1".toList, "a2".toList, "a3".toList]).2 ∧
    DepNote.notExist "a3".toList ∈
      (resolveMissing
        (fun i =>
          if i = "a1".toList then some ⟨"a1".toList, "Active".toList, .active⟩
          else if i = "a2".toList then
            some ⟨"a2".toList, "Archived".toList, .archived⟩
          else none)
        ["a1".toList, "a2".toList, "a3".toList]).2 := by
  have h := exportDeps_spec
    (fun i =>
      if i = "a1".toList then some ⟨"a1".toList, "Active".toList, .active⟩
      else if i = "a2".toList then
        some ⟨"a2".toList, "Archived".toList, .archived⟩
      else none)
    ["a1".toList, "a2".toList, "a3".toList] []
  refine ⟨(h.1 "a1".toList (by decide) ⟨"a1".toList, "Active".toList, .active⟩
      (by decide) rfl).1,
    (h.2.1 "a2".toList (by decide) ⟨"a2".toList, "Archived".toList, .archived⟩
      (by decide) rfl).2,
    h.2.2.1 "a3".toList (by decide) (by decide)⟩

theorem foldBatches_mem (fuel : Nat) :
    ∀ (ps buf : List FolderNode) (b : List FolderNode),
      b ∈ foldBatches fuel ps buf → b = ps ∨ b.length ≤ 10 := by
  induction fuel with
  | zero =>
    intro ps buf b hb
    simp [foldBatches] at hb
  | succ fuel ih =>
    intro ps buf b hb
    cases ps with
    | nil => simp [foldBatches] at hb
    | cons p ps =>
      simp only [foldBatches, List.mem_cons] at hb
      rcases hb with hb | hb
      · exact Or.inl hb
      · rcases ih _ _ _ hb with hb | hb
        · right
          rw [hb]
          exact List.length_take_le 10 _
        · exact Or.inr hb

/-- C9 (amended): every batch of the folder traversal after the first
contains at most ten folders — the explicit parallelism cap applied by
`splice(0, Math.min(length, 10))` — and each batch is awaited jointly
before the next begins; the first batch, however, is the entire base
folder list, which the code does not cap. -/
theorem folderBatches_spec (baseFolders : List FolderNode) (fuel : Nat) :
    (∀ b ∈ getContentItemsBatches baseFolders fuel,
      b = baseFolders ∨ b.length ≤ 10) ∧
    (0 < fuel → baseFolders ≠ [] →
      (getContentItemsBatches baseFolders fuel).head? = some baseFolders) := by
  constructor
  · exact foldBatches_mem fuel baseFolders []
  · intro hf hb
    cases fuel with
    | zero => cases hf
    | succ fuel =>
      cases baseFolders with
      | nil => exact absurd rfl hb
      | cons p ps => rfl

/-- C9 counterexample: with eleven base folders, the first processed
batch holds all eleven folders, exceeding the claimed cap of ten. -/
theorem folderBatches_counterexample :
    getContentItemsBatches elevenFolders 3 = [elevenFolders] ∧
    elevenFolders.length = 11 ∧
    ¬ (∀ b ∈ getContentItemsBatches elevenFolders 3, b.length ≤ 10) := by
  refine ⟨rfl, rfl, ?_⟩
  intro h
  have hmem : elevenFolders ∈ getContentItemsBatches elevenFolders 3 := by
    rw [(rfl : getContentItemsBatches elevenFolders 3 = [elevenFolders])]
    exact List.mem_cons_self _ _
  have hle := h elevenFolders hmem
  rw [(rfl : elevenFolders.length = 11)] at hle
  exact absurd hle (by decide)

/-- Witness for the folder-batch theorem at a two-folder tree. -/
theorem folderBatches_spec_witness :
    (getContentItemsBatches [⟨"f1".toList, []⟩, ⟨"f2".toList, []⟩] 3).head? =
      some [⟨"f1".toList, []⟩, ⟨"f2".toList, []⟩] := by
  exact (folderBatches_spec [⟨"f1".toList, []⟩, ⟨"f2".toList, []⟩] 3).2
    (by decide) (by simp)

end DcCli
